import Mathlib

/-!
Shallow embedding of `src/tetris.py`: the shape rotation transform, the
`Piece` class and the `Tetris` controller (placement check, board merge,
row clearing, movement, hold, spawn).  Rows are bitmasks (`Nat`), row 0
is the lowest layer and column 0 the rightmost column, exactly as the
Python source documents.  Python `int` coordinates are `Int`.
-/

namespace Tet

/-- One board coordinate (Python `Loc`): `row`/`col` are Python ints. -/
structure Loc where
  row : Int
  col : Int
  deriving DecidableEq, Repr

/-- The four rotation states (Python `Dir` enum). -/
inductive Dir where
  | N
  | E
  | S
  | W
  deriving DecidableEq, Repr

/-- `Dir.value` of the Python enum member. -/
def Dir.val : Dir → Nat
  | .N => 0
  | .E => 1
  | .S => 2
  | .W => 3

/-- Python `Dir(n)`; only ever called with `n` in `0..3`. -/
def dirOfVal : Nat → Dir
  | 0 => .N
  | 1 => .E
  | 2 => .S
  | _ => .W

/-- Python `int.bit_length()`, written with an explicit fuel argument so
that the kernel can evaluate it (`n / 2` strictly decreases, so
`fuel = n` is always enough). -/
def bitLenAux : Nat → Nat → Nat
  | _, 0 => 0
  | 0, _ + 1 => 0
  | fuel + 1, n + 1 => bitLenAux fuel ((n + 1) / 2) + 1

/-- `n.bit_length()`: the highest set bit position plus one; `0` for `0`. -/
def bitLen (n : Nat) : Nat := bitLenAux n n

/-- `max(layer.bit_length() for layer in shape)` (line 25).  On the empty
tuple Python's `max` raises `ValueError`; the `0` returned here is never
relied on (all seven shapes and all rotation results are non-empty). -/
def shapeWidth (shape : List Nat) : Nat :=
  shape.foldr (fun layer acc => max (bitLen layer) acc) 0

/-- The integer Python's `int("".join(new_layer), 2)` builds for one
transposed column (line 27): bit `a` of the result is bit `k` of row `a`
of the shape.  The string for column `k` lists the padded rows in
reversed order, so its first character (most significant bit) comes from
the top row; unwinding positions gives exactly this bottom-up packing. -/
def colBits (shape : List Nat) (k : Nat) : Nat :=
  match shape with
  | [] => 0
  | layer :: rest => (if layer.testBit k then 1 else 0) + 2 * colBits rest k

/-- Python `rotation` (lines 19-27): pad every row to the shape's width,
reverse the row order and transpose.  Result row `j` reads bit
`w - 1 - j` of every original row, bottom-up.  When every row is `0` the
padded width is still one character (`f"{0:0>0b}" = "0"`), hence
`max (shapeWidth shape) 1` columns. -/
def rotation (shape : List Nat) : List Nat :=
  let w := max (shapeWidth shape) 1
  (List.range w).map fun j => colBits shape (w - 1 - j)

/-- Python `Piece`: the four precomputed rotation variants, the anchor
`loc` (bottom-left corner of the bounding box), the current rotation
state and the per-state `widths`/`heights` tables (lines 30-43). -/
structure Piece where
  shapes : Dir → List Nat
  loc : Loc
  rot : Dir
  widths : Dir → Nat
  heights : Dir → Nat

/-- `Piece.__init__` (lines 30-43): `N` is the base shape, `W`/`S`/`E`
are one, two and three applications of `rotation`. -/
def mkPiece (loc : Loc) (shape : List Nat) : Piece :=
  let shapes : Dir → List Nat := fun d =>
    match d with
    | .N => shape
    | .W => rotation shape
    | .S => rotation (rotation shape)
    | .E => rotation (rotation (rotation shape))
  { shapes := shapes
    loc := loc
    rot := Dir.N
    widths := fun d => shapeWidth (shapes d)
    heights := fun d => (shapes d).length }

/-- `Piece.get_width` (lines 45-46). -/
def Piece.get_width (p : Piece) : Nat := p.widths p.rot

/-- `Piece.get_height` (lines 48-49).  NOTE: the Python body returns
`self.widths[self.rot]`, not `self.heights[self.rot]`; the embedding
reproduces that verbatim. -/
def Piece.get_height (p : Piece) : Nat := p.widths p.rot

/-- `Piece.get_bits` (lines 51-52): every variant row shifted left by
`col - width`.  Python raises on a negative shift; each caller forces
this generator only after `piece_en_cours` has checked
`col - width ≥ 0`, where `Int.toNat` agrees with the Python shift. -/
def Piece.get_bits (p : Piece) : List Nat :=
  (p.shapes p.rot).map fun layer => layer <<< (p.loc.col - (p.get_width : Int)).toNat

/-- `Piece.rot_right` (lines 54-55): `Dir((value + 1) % 4)`. -/
def Piece.rot_right (p : Piece) : Piece :=
  { p with rot := dirOfVal ((p.rot.val + 1) % 4) }

/-- `Piece.rot_left` (lines 57-58): `Dir((value - 1) % 4)`; `Int.emod`
matches Python `%` for the positive modulus 4. -/
def Piece.rot_left (p : Piece) : Piece :=
  { p with rot := dirOfVal (((p.rot.val : Int) - 1) % 4).toNat }

/-- Python `Tetris` (lines 66-84).  `random.choice(list(SHAPES.values()))`
is modelled by an external stream `supply` of shapes consumed at index
`supplyIdx`.  The Python attribute `can_hold` is only created by
`_stop_piece`/`hold` and is never read before it is first written, so
its initial value here (`false`) is immaterial. -/
structure Tetris where
  width : Nat
  height : Nat
  board : List Nat
  FULL_ROW : Nat
  current_piece : Piece
  hold_piece : Option Piece
  cleared_lines : Nat
  starting_level : Nat
  game_over : Bool
  can_hold : Bool
  supply : Nat → List Nat
  supplyIdx : Nat

/-- In-place mutation `self.current_piece.loc.row = r`. -/
def setRow (t : Tetris) (r : Int) : Tetris :=
  { t with current_piece :=
      { t.current_piece with loc := { t.current_piece.loc with row := r } } }

/-- In-place mutation `self.current_piece.loc.col = c`. -/
def setCol (t : Tetris) (c : Int) : Tetris :=
  { t with current_piece :=
      { t.current_piece with loc := { t.current_piece.loc with col := c } } }

/-- The overlap loop of `piece_en_cours` (lines 120-125): a row index at
or above the stored board breaks out of the loop; a nonzero AND with a
stored row rejects the placement. -/
def noOverlap (board : List Nat) (start : Nat) : List Nat → Bool
  | [] => true
  | layer :: rest =>
    if board.length ≤ start then true
    else if board.getD start 0 &&& layer ≠ 0 then false
    else noOverlap board (start + 1) rest

/-- `piece_en_cours` (lines 112-126): the placement check.  The row and
column guards run before the `get_bits` generator is forced, so the
`Int.toNat` conversions below only ever see non-negative values. -/
def piece_en_cours (t : Tetris) : Bool :=
  if t.current_piece.loc.row < 0 then false
  else if (t.width : Int) < t.current_piece.loc.col then false
  else if t.current_piece.loc.col - (t.current_piece.get_width : Int) < 0 then false
  else noOverlap t.board t.current_piece.loc.row.toNat t.current_piece.get_bits

/-- The merge loop of `_stop_piece` (lines 102-107): OR each piece row
into the board at `start + offset`, appending past the end; the length
test uses the current (growing) board, exactly as the Python loop does. -/
def mergeRows (board : List Nat) (start : Nat) : List Nat → List Nat
  | [] => board
  | layer :: rest =>
    if start < board.length then
      mergeRows (board.set start (board.getD start 0 ||| layer)) (start + 1) rest
    else
      mergeRows (board ++ [layer]) (start + 1) rest

/-- `_clear_rows` (lines 95-98): drop every row equal to `FULL_ROW` and
add the number of dropped rows to `cleared_lines`. -/
def _clear_rows (t : Tetris) : Tetris :=
  { t with
    board := t.board.filter fun layer => layer != t.FULL_ROW
    cleared_lines := t.cleared_lines +
      (t.board.length - (t.board.filter fun layer => layer != t.FULL_ROW).length) }

/-- `_add_piece` (lines 86-90): spawn `shape` at row
`height - len(shape)`, column `width // 2`, rotation `N`; set
`game_over` when the fresh piece is invalidly placed. -/
def _add_piece (t : Tetris) (shape : List Nat) : Tetris :=
  let p := mkPiece ⟨(t.height : Int) - shape.length, ((t.width / 2 : Nat) : Int)⟩ shape
  let t1 := { t with current_piece := p }
  if piece_en_cours t1 then t1 else { t1 with game_over := true }

/-- `_next_piece` (lines 92-93): draw the next shape from the supply. -/
def _next_piece (t : Tetris) : Tetris :=
  _add_piece { t with supplyIdx := t.supplyIdx + 1 } (t.supply t.supplyIdx)

/-- `_stop_piece` (lines 100-110): merge the current piece at `loc.row`,
clear full rows, spawn the next piece, re-enable hold.  Every call site
reaches this with the piece at a valid position, where `loc.row ≥ 0`
and `Int.toNat` is exact. -/
def _stop_piece (t : Tetris) : Tetris :=
  let merged := mergeRows t.board t.current_piece.loc.row.toNat t.current_piece.get_bits
  { _next_piece (_clear_rows { t with board := merged }) with can_hold := true }

/-- `move_down` (lines 128-134): lower the piece one row; a rejected
move restores the row (`-1` then `+1`) and locks via `_stop_piece`.
The boolean reports whether the piece actually moved. -/
def move_down (t : Tetris) : Tetris × Bool :=
  if piece_en_cours (setRow t (t.current_piece.loc.row - 1)) then
    (setRow t (t.current_piece.loc.row - 1), true)
  else
    (_stop_piece (setRow (setRow t (t.current_piece.loc.row - 1))
      ((setRow t (t.current_piece.loc.row - 1)).current_piece.loc.row + 1)), false)

/-- `drop` (lines 136-138): `while self.move_down(): pass`.  Each
successful step lowers the anchor row by one and a row that passed the
placement check is non-negative, so the loop terminates. -/
def drop (t : Tetris) : Tetris :=
  if h : (move_down t).2 = true then drop (move_down t).1
  else (move_down t).1
termination_by (t.current_piece.loc.row + 1).toNat
decreasing_by
  simp only [move_down] at h ⊢
  split at h
  case isTrue hval =>
    have h0 : ¬((setRow t (t.current_piece.loc.row - 1)).current_piece.loc.row < 0) := by
      by_contra hneg
      simp only [piece_en_cours, if_pos hneg] at hval
      exact absurd hval (by decide)
    rw [if_pos hval]
    show ((setRow t (t.current_piece.loc.row - 1)).current_piece.loc.row + 1).toNat <
      (t.current_piece.loc.row + 1).toNat
    simp only [setRow] at h0 ⊢
    omega
  case isFalse hval => simp at h

/-- `move_left` (lines 140-143): column 0 is rightmost, so left means
`col + 1`; revert when the tentative placement is rejected. -/
def move_left (t : Tetris) : Tetris :=
  if piece_en_cours (setCol t (t.current_piece.loc.col + 1)) then
    setCol t (t.current_piece.loc.col + 1)
  else
    setCol (setCol t (t.current_piece.loc.col + 1))
      ((setCol t (t.current_piece.loc.col + 1)).current_piece.loc.col - 1)

/-- `move_right` (lines 145-148). -/
def move_right (t : Tetris) : Tetris :=
  if piece_en_cours (setCol t (t.current_piece.loc.col - 1)) then
    setCol t (t.current_piece.loc.col - 1)
  else
    setCol (setCol t (t.current_piece.loc.col - 1))
      ((setCol t (t.current_piece.loc.col - 1)).current_piece.loc.col + 1)

/-- `Tetris.rot_right` (lines 150-153): rotate, revert on rejection. -/
def Tetris.rot_right (t : Tetris) : Tetris :=
  if piece_en_cours { t with current_piece := t.current_piece.rot_right } then
    { t with current_piece := t.current_piece.rot_right }
  else
    { t with current_piece := t.current_piece.rot_right.rot_left }

/-- `Tetris.rot_left` (lines 155-158). -/
def Tetris.rot_left (t : Tetris) : Tetris :=
  if piece_en_cours { t with current_piece := t.current_piece.rot_left } then
    { t with current_piece := t.current_piece.rot_left }
  else
    { t with current_piece := t.current_piece.rot_left.rot_right }

/-- `hold` (lines 161-169): first hold stores the current piece and
spawns; a later hold swaps only when `can_hold` is set; every path ends
with `self.can_hold = False`. -/
def hold (t : Tetris) : Tetris :=
  match t.hold_piece with
  | none =>
    { _next_piece { t with hold_piece := some t.current_piece } with can_hold := false }
  | some hp =>
    if t.can_hold then
      { _add_piece { t with hold_piece := some t.current_piece } (hp.shapes Dir.N)
        with can_hold := false }
    else
      { t with can_hold := false }

/-- `get_level` (lines 171-172). -/
def get_level (t : Tetris) : Nat := t.starting_level + t.cleared_lines / 10

/-- `Tetris.__init__` (lines 68-84): the first piece is spawned by
`_next_piece` before line 84 assigns `game_over = False`, so even an
immediately-invalid first spawn starts with the flag cleared.  The
placeholder piece stands for the transient `current_piece = None` that
`_next_piece` immediately replaces; the remaining attributes are
assigned values that later lines of `__init__` do not change. -/
def mkTetris (height width starting_level : Nat) (supply : Nat → List Nat) : Tetris :=
  let pre : Tetris :=
    { width := width
      height := height
      board := []
      FULL_ROW := 2 ^ width - 1
      current_piece := mkPiece ⟨0, 0⟩ []
      hold_piece := none
      cleared_lines := 0
      starting_level := starting_level
      game_over := false
      can_hold := false
      supply := supply
      supplyIdx := 0 }
  { _next_piece pre with game_over := false }

/-- States reachable through the controller operations from a fresh
session with any dimensions, starting level and shape supply (the
driver's restart key rebuilds a fresh `mkTetris`). -/
inductive Reachable : Tetris → Prop where
  | init (height width starting_level : Nat) (supply : Nat → List Nat) :
      Reachable (mkTetris height width starting_level supply)
  | down {t : Tetris} : Reachable t → Reachable (move_down t).1
  | left {t : Tetris} : Reachable t → Reachable (move_left t)
  | right {t : Tetris} : Reachable t → Reachable (move_right t)
  | rotr {t : Tetris} : Reachable t → Reachable t.rot_right
  | rotl {t : Tetris} : Reachable t → Reachable t.rot_left
  | dropped {t : Tetris} : Reachable t → Reachable (drop t)
  | held {t : Tetris} : Reachable t → Reachable (hold t)

/-- A constant shape supply: every draw is the square piece `o`. -/
def oSupply : Nat → List Nat := fun _ => [3, 3]

/-- A small concrete session: 4 x 4 board, square pieces. -/
def T0 : Tetris := mkTetris 4 4 0 oSupply

/-- `T0` after two successful `move_down` steps: the square piece rests
on the floor (anchor row 0) of the still-empty board. -/
def T2 : Tetris := (move_down (move_down T0).1).1

/-- `T0` after one `hold` call: a piece is held and `can_hold` is off. -/
def TH : Tetris := hold T0

/-- `T2` moved left twice: the square piece hugs the left wall
(anchor column 4 on the width-4 board), so another `move_left` is
rejected. -/
def TL : Tetris := move_left (move_left T2)

/-- The board invariant of the specification: the full-row mask is
`2 ^ width - 1` and no stored row ever equals it. -/
def Inv (t : Tetris) : Prop :=
  t.FULL_ROW = 2 ^ t.width - 1 ∧ ∀ r ∈ t.board, r ≠ t.FULL_ROW

/-! ## Projection and state-surgery lemmas -/

theorem setRow_current_row (t : Tetris) (r : Int) :
    (setRow t r).current_piece.loc.row = r := rfl

theorem setRow_current_col (t : Tetris) (r : Int) :
    (setRow t r).current_piece.loc.col = t.current_piece.loc.col := rfl

theorem setRow_board (t : Tetris) (r : Int) : (setRow t r).board = t.board := rfl

theorem setRow_width (t : Tetris) (r : Int) : (setRow t r).width = t.width := rfl

theorem setRow_get_width (t : Tetris) (r : Int) :
    (setRow t r).current_piece.get_width = t.current_piece.get_width := rfl

theorem setRow_get_bits (t : Tetris) (r : Int) :
    (setRow t r).current_piece.get_bits = t.current_piece.get_bits := rfl

theorem setRow_setRow (t : Tetris) (a b : Int) : setRow (setRow t a) b = setRow t b := rfl

theorem setRow_self (t : Tetris) : setRow t t.current_piece.loc.row = t := rfl

theorem setCol_current_col (t : Tetris) (c : Int) :
    (setCol t c).current_piece.loc.col = c := rfl

theorem setCol_setCol (t : Tetris) (a b : Int) : setCol (setCol t a) b = setCol t b := rfl

theorem setCol_self (t : Tetris) : setCol t t.current_piece.loc.col = t := rfl

theorem Piece.rot_right_rot_left (p : Piece) : p.rot_right.rot_left = p := by
  obtain ⟨sh, loc, rot, ws, hs⟩ := p
  cases rot <;> with_unfolding_all rfl

theorem Piece.rot_left_rot_right (p : Piece) : p.rot_left.rot_right = p := by
  obtain ⟨sh, loc, rot, ws, hs⟩ := p
  cases rot <;> with_unfolding_all rfl

theorem set_can_hold_eta {t : Tetris} (h : t.can_hold = false) :
    { t with can_hold := false } = t := by
  rw [← h]

/-! ## `move_down` case analysis -/

theorem move_down_true {t : Tetris} (h : (move_down t).2 = true) :
    (move_down t).1 = setRow t (t.current_piece.loc.row - 1) ∧
    piece_en_cours (setRow t (t.current_piece.loc.row - 1)) = true := by
  unfold move_down at h ⊢
  split at h
  case isTrue hc => exact ⟨by rw [if_pos hc], hc⟩
  case isFalse hc => exact absurd h (by simp)

theorem move_down_false {t : Tetris} (h : (move_down t).2 = false) :
    (move_down t).1 = _stop_piece t := by
  unfold move_down at h ⊢
  split at h
  case isTrue hc => exact absurd h (by simp)
  case isFalse hc =>
    rw [if_neg hc]
    show _stop_piece (setRow (setRow t (t.current_piece.loc.row - 1))
      ((setRow t (t.current_piece.loc.row - 1)).current_piece.loc.row + 1)) = _stop_piece t
    rw [setRow_current_row, setRow_setRow]
    have heq : t.current_piece.loc.row - 1 + 1 = t.current_piece.loc.row := by omega
    rw [heq, setRow_self]

theorem move_down_false_cond {t : Tetris} (h : (move_down t).2 = false) :
    piece_en_cours (setRow t (t.current_piece.loc.row - 1)) = false := by
  unfold move_down at h
  split at h
  case isTrue hc => exact absurd h (by simp)
  case isFalse hc => simpa using hc

theorem valid_row_nonneg {t : Tetris} (h : piece_en_cours t = true) :
    0 ≤ t.current_piece.loc.row := by
  by_contra hneg
  push_neg at hneg
  simp only [piece_en_cours, if_pos hneg] at h
  exact absurd h (by decide)

/-! ## Claim theorems -/

/-- C8: for every piece, applying `rot_right` four times restores the
whole piece (rotation state, anchor and precomputed occupancy tables
alike), and `rot_left` is inverse to `rot_right` on both sides, so the
four rotation states form a cyclic group under the two operations. -/
theorem rotate_right_cyclic (p : Piece) :
    p.rot_right.rot_right.rot_right.rot_right = p ∧
    p.rot_right.rot_left = p ∧ p.rot_left.rot_right = p := by
  refine ⟨?_, Piece.rot_right_rot_left p, Piece.rot_left_rot_right p⟩
  obtain ⟨sh, loc, rot, ws, hs⟩ := p
  cases rot <;> simp [Piece.rot_right, Dir.val, dirOfVal]

/-- C1 (code bug): `get_height` is specified to return the row count of
the current rotation variant, and the `heights` table computed at
construction does record exactly that; but the body of `get_height`
returns `widths[rot]` instead.  On the line piece `(1, 1, 1, 1)` in its
base state the call returns 1 while the variant has 4 rows. -/
theorem get_height_is_width_bug :
    (mkPiece ⟨0, 0⟩ [1, 1, 1, 1]).get_height = 1 ∧
    (mkPiece ⟨0, 0⟩ [1, 1, 1, 1]).heights Dir.N = 4 ∧
    (mkPiece ⟨0, 0⟩ [1, 1, 1, 1]).get_height ≠
      ((mkPiece ⟨0, 0⟩ [1, 1, 1, 1]).shapes Dir.N).length := by
  refine ⟨rfl, rfl, by decide⟩

/-- C2 (amended): a `move_left`, `move_right`, `rot_right` or `rot_left`
call whose tentative placement fails `piece_en_cours` leaves the whole
game state unchanged; a `move_down` call whose tentative placement
fails reverts the row change but then locks, i.e. the resulting state
is `_stop_piece` of the unchanged state (the piece is merged at its
pre-call position and rotation, after which a fresh piece is spawned). -/
theorem rejected_move_reverts (t : Tetris) :
    (piece_en_cours (setCol t (t.current_piece.loc.col + 1)) = false → move_left t = t) ∧
    (piece_en_cours (setCol t (t.current_piece.loc.col - 1)) = false → move_right t = t) ∧
    (piece_en_cours { t with current_piece := t.current_piece.rot_right } = false →
      t.rot_right = t) ∧
    (piece_en_cours { t with current_piece := t.current_piece.rot_left } = false →
      t.rot_left = t) ∧
    ((move_down t).2 = false → (move_down t).1 = _stop_piece t) := by
  refine ⟨?_, ?_, ?_, ?_, fun h => move_down_false h⟩
  · intro h
    unfold move_left
    rw [if_neg (by simp [h])]
    rw [setCol_current_col, setCol_setCol]
    have heq : t.current_piece.loc.col + 1 - 1 = t.current_piece.loc.col := by omega
    rw [heq, setCol_self]
  · intro h
    unfold move_right
    rw [if_neg (by simp [h])]
    rw [setCol_current_col, setCol_setCol]
    have heq : t.current_piece.loc.col - 1 + 1 = t.current_piece.loc.col := by omega
    rw [heq, setCol_self]
  · intro h
    unfold Tetris.rot_right
    rw [if_neg (by simp [h])]
    rw [Piece.rot_right_rot_left]
  · intro h
    unfold Tetris.rot_left
    rw [if_neg (by simp [h])]
    rw [Piece.rot_left_rot_right]

/-- C2 counterexample: the claim as stated fails for `move_down`.  `T2`
is a reachable Playing state (square piece resting on the floor of an
empty board); the downward move is rejected, yet the call does not
leave the current piece's position unchanged — the lock replaces the
current piece with a fresh spawn at the top. -/
theorem rejected_moveDown_respawns_cex :
    Reachable T2 ∧ T2.game_over = false ∧ (move_down T2).2 = false ∧
    (move_down T2).1.current_piece.loc ≠ T2.current_piece.loc := by
  refine ⟨?_, rfl, rfl, by decide⟩
  exact Reachable.down (Reachable.down (Reachable.init 4 4 0 oSupply))

/-- C2 witness: at `TL` (the square piece hugging the left wall) the
tentative leftward placement is rejected and the call is a no-op. -/
theorem rejected_move_reverts_witness : move_left TL = TL :=
  (rejected_move_reverts TL).1 (by decide)

/-! ## Projections through spawn, clear and lock -/

theorem add_piece_board (t : Tetris) (s : List Nat) : (_add_piece t s).board = t.board := by
  simp only [_add_piece]
  split <;> rfl

theorem add_piece_FULL (t : Tetris) (s : List Nat) :
    (_add_piece t s).FULL_ROW = t.FULL_ROW := by
  simp only [_add_piece]
  split <;> rfl

theorem add_piece_width (t : Tetris) (s : List Nat) : (_add_piece t s).width = t.width := by
  simp only [_add_piece]
  split <;> rfl

theorem add_piece_cleared (t : Tetris) (s : List Nat) :
    (_add_piece t s).cleared_lines = t.cleared_lines := by
  simp only [_add_piece]
  split <;> rfl

theorem add_piece_hold (t : Tetris) (s : List Nat) :
    (_add_piece t s).hold_piece = t.hold_piece := by
  simp only [_add_piece]
  split <;> rfl

theorem next_piece_board (t : Tetris) : (_next_piece t).board = t.board := by
  unfold _next_piece
  rw [add_piece_board]

theorem next_piece_FULL (t : Tetris) : (_next_piece t).FULL_ROW = t.FULL_ROW := by
  unfold _next_piece
  rw [add_piece_FULL]

theorem next_piece_width (t : Tetris) : (_next_piece t).width = t.width := by
  unfold _next_piece
  rw [add_piece_width]

theorem next_piece_cleared (t : Tetris) : (_next_piece t).cleared_lines = t.cleared_lines := by
  unfold _next_piece
  rw [add_piece_cleared]

theorem next_piece_hold (t : Tetris) : (_next_piece t).hold_piece = t.hold_piece := by
  unfold _next_piece
  rw [add_piece_hold]

theorem stop_piece_board (t : Tetris) :
    (_stop_piece t).board =
      (mergeRows t.board t.current_piece.loc.row.toNat t.current_piece.get_bits).filter
        (fun layer => layer != t.FULL_ROW) := by
  have h1 : (_stop_piece t).board = (_next_piece (_clear_rows { t with board := (mergeRows t.board t.current_piece.loc.row.toNat t.current_piece.get_bits) })).board := rfl
  rw [h1, next_piece_board]
  with_unfolding_all rfl

theorem stop_piece_cleared (t : Tetris) :
    (_stop_piece t).cleared_lines = t.cleared_lines +
      ((mergeRows t.board t.current_piece.loc.row.toNat t.current_piece.get_bits).length -
        ((mergeRows t.board t.current_piece.loc.row.toNat t.current_piece.get_bits).filter
          (fun layer => layer != t.FULL_ROW)).length) := by
  have h1 : (_stop_piece t).cleared_lines = (_next_piece (_clear_rows { t with board := (mergeRows t.board t.current_piece.loc.row.toNat t.current_piece.get_bits) })).cleared_lines := rfl
  rw [h1, next_piece_cleared]
  with_unfolding_all rfl

theorem stop_piece_FULL (t : Tetris) : (_stop_piece t).FULL_ROW = t.FULL_ROW := by
  have h1 : (_stop_piece t).FULL_ROW = (_next_piece (_clear_rows { t with board := (mergeRows t.board t.current_piece.loc.row.toNat t.current_piece.get_bits) })).FULL_ROW := rfl
  rw [h1, next_piece_FULL]
  with_unfolding_all rfl

theorem stop_piece_width (t : Tetris) : (_stop_piece t).width = t.width := by
  have h1 : (_stop_piece t).width = (_next_piece (_clear_rows { t with board := (mergeRows t.board t.current_piece.loc.row.toNat t.current_piece.get_bits) })).width := rfl
  rw [h1, next_piece_width]
  with_unfolding_all rfl

/-! ## Hold -/

theorem hold_can_hold (t : Tetris) : (hold t).can_hold = false := by
  unfold hold
  split
  · rfl
  · split <;> rfl

theorem hold_hold_piece (t : Tetris) : ∃ q, (hold t).hold_piece = some q := by
  unfold hold
  split
  · refine ⟨t.current_piece, ?_⟩
    show (_next_piece { t with hold_piece := some t.current_piece }).hold_piece = _
    rw [next_piece_hold]
  case _ hp heq =>
    split
    · refine ⟨t.current_piece, ?_⟩
      show (_add_piece { t with hold_piece := some t.current_piece } (hp.shapes Dir.N)).hold_piece
        = _
      rw [add_piece_hold]
    · exact ⟨hp, heq⟩

theorem hold_of_some_not_can {t : Tetris} {q : Piece} (hq : t.hold_piece = some q)
    (hch : t.can_hold = false) : hold t = t := by
  unfold hold
  split
  case _ heq => rw [heq] at hq; simp at hq
  case _ hp heq =>
    rw [if_neg (by simp [hch])]
    exact set_can_hold_eta hch

/-- C6: once a shape is held, a second `hold` with no intervening lock
is a no-op — the whole state after two consecutive calls equals the
state after one; every lock (`_stop_piece`) resets hold-availability to
`true`; and when hold is available the first call does perform the
swap, storing the current piece in the hold slot. -/
theorem hold_twice_noop (t : Tetris) (h : t.hold_piece.isSome = true) :
    hold (hold t) = hold t ∧
    (_stop_piece t).can_hold = true ∧
    (t.can_hold = true → (hold t).hold_piece = some t.current_piece) := by
  refine ⟨?_, rfl, ?_⟩
  · obtain ⟨q, hq⟩ := hold_hold_piece t
    exact hold_of_some_not_can hq (hold_can_hold t)
  · intro hc
    obtain ⟨p, hp⟩ := Option.isSome_iff_exists.mp h
    unfold hold
    split
    case _ heq => rw [heq] at hp; simp at hp
    case _ hp2 heq =>
      rw [if_pos hc]
      show (_add_piece { t with hold_piece := some t.current_piece } (hp2.shapes Dir.N)).hold_piece
        = _
      rw [add_piece_hold]

/-- C6 witness: at `TH` (a state holding a shape) the second and third
`hold` calls coincide, the lock resets `can_hold`, and the swap clause
holds. -/
theorem hold_twice_noop_witness :
    hold (hold TH) = hold TH ∧
    (_stop_piece TH).can_hold = true ∧
    (TH.can_hold = true → (hold TH).hold_piece = some TH.current_piece) :=
  hold_twice_noop TH rfl

/-! ## Row clearing -/

theorem length_filter_add_count (F : Nat) (l : List Nat) :
    (l.filter fun x => x != F).length + l.count F = l.length := by
  induction l with
  | nil => rfl
  | cons a l ih =>
    rw [List.filter_cons, List.count_cons]
    by_cases ha : a = F
    · subst ha
      rw [if_neg (by simp), if_pos (by simp)]
      simp only [List.length_cons]
      omega
    · rw [if_pos (by simpa using ha), if_neg (by simpa using ha)]
      simp only [List.length_cons]
      omega

/-- C3: locking merges the current piece's rows into the board; if the
merged board has exactly `k` rows equal to the full-row mask, the lock
raises `cleared_lines` by exactly `k`, the resulting board is the
merged board with precisely those rows filtered out (so the remaining
rows keep their relative bottom-up order with no gaps), and it is a
sublist of the merged board that is `k` rows shorter. -/
theorem lock_clears_full_rows (t : Tetris) :
    (_stop_piece t).board =
      (mergeRows t.board t.current_piece.loc.row.toNat t.current_piece.get_bits).filter
        (fun layer => layer != t.FULL_ROW) ∧
    (_stop_piece t).cleared_lines = t.cleared_lines +
      (mergeRows t.board t.current_piece.loc.row.toNat t.current_piece.get_bits).count
        t.FULL_ROW ∧
    List.Sublist (_stop_piece t).board
      (mergeRows t.board t.current_piece.loc.row.toNat t.current_piece.get_bits) ∧
    (_stop_piece t).board.length +
      (mergeRows t.board t.current_piece.loc.row.toNat t.current_piece.get_bits).count
        t.FULL_ROW =
      (mergeRows t.board t.current_piece.loc.row.toNat t.current_piece.get_bits).length := by
  have hb := stop_piece_board t
  have hc := stop_piece_cleared t
  have hl := length_filter_add_count t.FULL_ROW
    (mergeRows t.board t.current_piece.loc.row.toNat t.current_piece.get_bits)
  refine ⟨hb, ?_, ?_, ?_⟩
  · rw [hc]
    omega
  · rw [hb]
    exact List.filter_sublist _
  · rw [hb]
    omega

/-! ## The no-full-row invariant over reachable states -/

theorem inv_clear_rows {t : Tetris} (h : t.FULL_ROW = 2 ^ t.width - 1) :
    Inv (_clear_rows t) := by
  refine ⟨h, ?_⟩
  intro r hr
  have hm : r ∈ t.board.filter (fun layer => layer != t.FULL_ROW) := hr
  have := (List.mem_filter.mp hm).2
  simpa using this

theorem inv_add_piece (u : Tetris) (s : List Nat) (h : Inv u) : Inv (_add_piece u s) := by
  obtain ⟨h1, h2⟩ := h
  refine ⟨?_, ?_⟩
  · rw [add_piece_FULL, add_piece_width]
    exact h1
  · intro r hr
    rw [add_piece_board] at hr
    rw [add_piece_FULL]
    exact h2 r hr

theorem inv_next_piece (u : Tetris) (h : Inv u) : Inv (_next_piece u) := by
  unfold _next_piece
  exact inv_add_piece { u with supplyIdx := u.supplyIdx + 1 } _ h

theorem inv_set_can_hold (u : Tetris) (b : Bool) (h : Inv u) : Inv { u with can_hold := b } := h

theorem inv_stop_piece {t : Tetris} (h : Inv t) : Inv (_stop_piece t) := by
  obtain ⟨h1, h2⟩ := h
  refine ⟨?_, ?_⟩
  · rw [stop_piece_FULL, stop_piece_width]
    exact h1
  · intro r hr
    rw [stop_piece_board] at hr
    rw [stop_piece_FULL]
    have := (List.mem_filter.mp hr).2
    simpa using this

theorem inv_move_down {t : Tetris} (h : Inv t) : Inv (move_down t).1 := by
  unfold move_down
  split
  · exact h
  · exact inv_stop_piece h

theorem inv_move_left {t : Tetris} (h : Inv t) : Inv (move_left t) := by
  unfold move_left
  split
  · exact h
  · exact h

theorem inv_move_right {t : Tetris} (h : Inv t) : Inv (move_right t) := by
  unfold move_right
  split
  · exact h
  · exact h

theorem inv_rot_right {t : Tetris} (h : Inv t) : Inv t.rot_right := by
  unfold Tetris.rot_right
  split
  · exact h
  · exact h

theorem inv_rot_left {t : Tetris} (h : Inv t) : Inv t.rot_left := by
  unfold Tetris.rot_left
  split
  · exact h
  · exact h

theorem inv_hold {t : Tetris} (h : Inv t) : Inv (hold t) := by
  unfold hold
  split
  · show Inv { _next_piece { t with hold_piece := some t.current_piece } with can_hold := false }
    exact inv_set_can_hold _ false
      (inv_next_piece { t with hold_piece := some t.current_piece } h)
  · split
    · exact inv_set_can_hold _ false
        (inv_add_piece { t with hold_piece := some t.current_piece } _ h)
    · exact h

theorem inv_drop_aux (n : Nat) : ∀ t : Tetris,
    (t.current_piece.loc.row + 1).toNat ≤ n → Inv t → Inv (drop t) := by
  induction n with
  | zero =>
    intro t hn h
    rw [drop]
    split
    case isTrue hmv =>
      obtain ⟨heq, hval⟩ := move_down_true hmv
      have h0 := valid_row_nonneg hval
      rw [setRow_current_row] at h0
      exact absurd hn (by omega)
    case isFalse hmv => exact inv_move_down h
  | succ n ih =>
    intro t hn h
    rw [drop]
    split
    case isTrue hmv =>
      apply ih
      · obtain ⟨heq, hval⟩ := move_down_true hmv
        have h0 := valid_row_nonneg hval
        rw [setRow_current_row] at h0
        rw [heq, setRow_current_row]
        omega
      · exact inv_move_down h
    case isFalse hmv => exact inv_move_down h

theorem inv_mkTetris (h w l : Nat) (sup : Nat → List Nat) : Inv (mkTetris h w l sup) := by
  have hF : (mkTetris h w l sup).FULL_ROW = 2 ^ w - 1 := by
    show (_next_piece _).FULL_ROW = _
    rw [next_piece_FULL]
  have hW : (mkTetris h w l sup).width = w := by
    show (_next_piece _).width = _
    rw [next_piece_width]
  have hB : (mkTetris h w l sup).board = [] := by
    show (_next_piece _).board = _
    rw [next_piece_board]
  refine ⟨by rw [hF, hW], ?_⟩
  intro r hr
  rw [hB] at hr
  simp at hr

/-- C4: in every state reachable through the controller the full-row
mask equals `2 ^ width - 1` and no stored board row equals it (the same
operation that produces a full row removes it again); moreover for any
state, a row of the board survives `_clear_rows` exactly when it
differs from the full-row mask. -/
theorem full_row_invariant (t : Tetris) (h : Reachable t) :
    t.FULL_ROW = 2 ^ t.width - 1 ∧
    (∀ r ∈ t.board, r ≠ t.FULL_ROW) ∧
    (∀ s : Tetris, ∀ r ∈ s.board, (r ∈ (_clear_rows s).board ↔ r ≠ s.FULL_ROW)) := by
  have hmem : ∀ s : Tetris, ∀ r ∈ s.board, (r ∈ (_clear_rows s).board ↔ r ≠ s.FULL_ROW) := by
    intro s r hr
    show r ∈ s.board.filter (fun layer => layer != s.FULL_ROW) ↔ _
    rw [List.mem_filter]
    simp [hr]
  have hInv : Inv t := by
    induction h with
    | init h w l sup => exact inv_mkTetris h w l sup
    | down _ ih => exact inv_move_down ih
    | left _ ih => exact inv_move_left ih
    | right _ ih => exact inv_move_right ih
    | rotr _ ih => exact inv_rot_right ih
    | rotl _ ih => exact inv_rot_left ih
    | dropped _ ih => exact inv_drop_aux _ _ le_rfl ih
    | held _ ih => exact inv_hold ih
  exact ⟨hInv.1, hInv.2, hmem⟩

/-- C4 witness: the invariant instantiated at the concrete reachable
state `T0`. -/
theorem full_row_invariant_witness :
    T0.FULL_ROW = 2 ^ T0.width - 1 ∧
    (∀ r ∈ T0.board, r ≠ T0.FULL_ROW) ∧
    (∀ s : Tetris, ∀ r ∈ s.board, (r ∈ (_clear_rows s).board ↔ r ≠ s.FULL_ROW)) :=
  full_row_invariant T0 (Reachable.init 4 4 0 oSupply)

/-- C5: from a Playing state, spawning a shape places the new current
piece at rotation state `N`, anchored at column `width / 2` (integer
division) and row `height` minus the shape's row count, and the
GameOver flag ends up set exactly when that freshly placed piece fails
the placement check — the invalid piece staying in place as the current
piece either way. -/
theorem spawn_spec (t : Tetris) (shape : List Nat) (h : t.game_over = false) :
    (_add_piece t shape).current_piece =
      mkPiece ⟨(t.height : Int) - shape.length, ((t.width / 2 : Nat) : Int)⟩ shape ∧
    ((_add_piece t shape).game_over = true ↔
      piece_en_cours { t with current_piece := (mkPiece ⟨(t.height : Int) - shape.length, ((t.width / 2 : Nat) : Int)⟩ shape) } = false) := by
  simp only [_add_piece]
  split
  case isTrue hv =>
    refine ⟨rfl, ?_⟩
    rw [hv]
    show t.game_over = true ↔ _
    simp [h]
  case isFalse hv =>
    exact ⟨rfl, ⟨fun _ => by simpa using hv, fun _ => rfl⟩⟩

/-- C5 witness: spawning the square shape on the concrete Playing state
`T0`. -/
theorem spawn_spec_witness :
    (_add_piece T0 [3, 3]).current_piece =
      mkPiece ⟨(T0.height : Int) - ([3, 3] : List Nat).length, ((T0.width / 2 : Nat) : Int)⟩
        [3, 3] ∧
    ((_add_piece T0 [3, 3]).game_over = true ↔
      piece_en_cours { T0 with current_piece := (mkPiece ⟨(T0.height : Int) - ([3, 3] : List Nat).length, ((T0.width / 2 : Nat) : Int)⟩ [3, 3]) } = false) :=
  spawn_spec T0 [3, 3] rfl

/-! ## Drop -/

theorem drop_finds_lock (n : Nat) : ∀ t : Tetris, (t.current_piece.loc.row + 1).toNat ≤ n →
    ∃ s : Tetris, (move_down s).2 = false ∧ drop t = (move_down s).1 := by
  induction n with
  | zero =>
    intro t hn
    rw [drop]
    split
    case isTrue hmv =>
      obtain ⟨heq, hval⟩ := move_down_true hmv
      have h0 := valid_row_nonneg hval
      rw [setRow_current_row] at h0
      exact absurd hn (by omega)
    case isFalse hmv =>
      exact ⟨t, by simpa using hmv, rfl⟩
  | succ n ih =>
    intro t hn
    rw [drop]
    split
    case isTrue hmv =>
      apply ih
      obtain ⟨heq, hval⟩ := move_down_true hmv
      have h0 := valid_row_nonneg hval
      rw [setRow_current_row] at h0
      rw [heq, setRow_current_row]
      omega
    case isFalse hmv =>
      exact ⟨t, by simpa using hmv, rfl⟩

/-- C9: every successful `move_down` lowers the anchor row by exactly
one and leaves it non-negative, so `drop` (the `while move_down()`
loop) terminates; its result is the result of a final `move_down` that
reported no movement, and that final call has already performed the
lock: its result is `_stop_piece` of the state it was called on. -/
theorem drop_terminates_and_locks (t : Tetris) :
    ((move_down t).2 = true →
      (move_down t).1.current_piece.loc.row = t.current_piece.loc.row - 1 ∧
      0 ≤ (move_down t).1.current_piece.loc.row) ∧
    ∃ s : Tetris, (move_down s).2 = false ∧ drop t = (move_down s).1 ∧
      (move_down s).1 = _stop_piece s := by
  constructor
  · intro hmv
    obtain ⟨heq, hval⟩ := move_down_true hmv
    have h0 := valid_row_nonneg hval
    rw [setRow_current_row] at h0
    rw [heq, setRow_current_row]
    exact ⟨rfl, h0⟩
  · obtain ⟨s, h1, h2⟩ := drop_finds_lock ((t.current_piece.loc.row + 1).toNat) t le_rfl
    exact ⟨s, h1, h2, move_down_false h1⟩

/-- C9 witness: at the concrete state `T0` the first `move_down`
succeeds and lowers the row, and `drop` ends in a locking `move_down`. -/
theorem drop_terminates_and_locks_witness :
    ((move_down T0).1.current_piece.loc.row = T0.current_piece.loc.row - 1 ∧
      0 ≤ (move_down T0).1.current_piece.loc.row) ∧
    ∃ s : Tetris, (move_down s).2 = false ∧ drop T0 = (move_down s).1 ∧
      (move_down s).1 = _stop_piece s :=
  ⟨(drop_terminates_and_locks T0).1 rfl, (drop_terminates_and_locks T0).2⟩

/-! ## The merge is contiguous -/

theorem noOverlap_false_lt : ∀ (bits board : List Nat) (start : Nat),
    noOverlap board start bits = false → start < board.length := by
  intro bits
  induction bits with
  | nil =>
    intro board start h
    simp [noOverlap] at h
  | cons layer rest ih =>
    intro board start h
    unfold noOverlap at h
    split at h
    · simp at h
    case isFalse hlen =>
      split at h
      · omega
      · have := ih board (start + 1) h
        omega

theorem getD_set (l : List Nat) (n i a : Nat) :
    (l.set n a).getD i 0 = if i = n ∧ n < l.length then a else l.getD i 0 := by
  by_cases h : i = n ∧ n < l.length
  · obtain ⟨rfl, h2⟩ := h
    rw [if_pos ⟨rfl, h2⟩]
    simp [List.getD_eq_getElem?_getD, List.getElem?_set_self h2]
  · rw [if_neg h]
    rcases Nat.lt_or_ge n l.length with hlt | hge
    · have hne : n ≠ i := fun he => h ⟨he.symm, hlt⟩
      simp [List.getD_eq_getElem?_getD, List.getElem?_set_ne hne]
    · rw [List.set_eq_of_length_le hge]

theorem mergeRows_length : ∀ (bits board : List Nat) (start : Nat), start ≤ board.length →
    (mergeRows board start bits).length = max board.length (start + bits.length) := by
  intro bits
  induction bits with
  | nil =>
    intro board start h
    simp only [mergeRows, List.length_nil]
    omega
  | cons layer rest ih =>
    intro board start h
    unfold mergeRows
    split
    case isTrue hlt =>
      rw [ih _ _ (by simp only [List.length_set]; omega)]
      simp only [List.length_set, List.length_cons]
      omega
    case isFalse hge =>
      rw [ih _ _ (by simp only [List.length_append, List.length_cons, List.length_nil]; omega)]
      simp only [List.length_append, List.length_cons, List.length_nil]
      omega

theorem mergeRows_getD : ∀ (bits board : List Nat) (start : Nat), start ≤ board.length →
    ∀ i : Nat, (mergeRows board start bits).getD i 0 =
      board.getD i 0 |||
        (if start ≤ i ∧ i < start + bits.length then bits.getD (i - start) 0 else 0) := by
  intro bits
  induction bits with
  | nil =>
    intro board start h i
    rw [if_neg (by simp only [List.length_nil]; omega)]
    simp [mergeRows]
  | cons layer rest ih =>
    intro board start h i
    unfold mergeRows
    split
    case isTrue hlt =>
      rw [ih _ _ (by simp only [List.length_set]; omega)]
      rw [getD_set]
      by_cases hi : i = start
      · rw [if_pos ⟨hi, hlt⟩, if_neg (by omega), if_pos (by simp only [List.length_cons]; omega)]
        have hz : i - start = 0 := by omega
        rw [hz, List.getD_cons_zero]
        simp [hi]
      · rw [if_neg (fun hc => hi hc.1)]
        congr 1
        by_cases hc : start + 1 ≤ i ∧ i < start + 1 + rest.length
        · rw [if_pos hc, if_pos (by simp only [List.length_cons]; omega)]
          have hsub : i - start = (i - (start + 1)) + 1 := by omega
          rw [hsub, List.getD_cons_succ]
        · rw [if_neg hc, if_neg (by simp only [List.length_cons]; omega)]
    case isFalse hge =>
      have hstart : start = board.length := by omega
      rw [ih _ _ (by simp only [List.length_append, List.length_cons, List.length_nil]; omega)]
      rcases Nat.lt_trichotomy i board.length with hi | hi | hi
      · rw [List.getD_append _ _ _ _ hi, if_neg (by omega),
          if_neg (by simp only [List.length_cons]; omega)]
      · rw [List.getD_append_right _ _ _ _ (by omega)]
        have hz : i - board.length = 0 := by omega
        rw [hz, List.getD_cons_zero, if_neg (by omega),
          if_pos (by simp only [List.length_cons]; omega)]
        have hz2 : i - start = 0 := by omega
        rw [hz2, List.getD_cons_zero, List.getD_eq_default _ _ (by omega)]
        simp
      · rw [List.getD_append_right _ _ _ _ (by omega)]
        have hs1 : i - board.length = (i - board.length - 1) + 1 := by omega
        rw [hs1, List.getD_cons_succ, List.getD_nil]
        have hbd : board.getD i 0 = 0 := List.getD_eq_default _ _ (by omega)
        by_cases hc : start + 1 ≤ i ∧ i < start + 1 + rest.length
        · rw [if_pos hc, if_pos (by simp only [List.length_cons]; omega)]
          have hs2 : i - start = (i - (start + 1)) + 1 := by omega
          rw [hs2, List.getD_cons_succ, hbd]
        · rw [if_neg hc, if_neg (by simp only [List.length_cons]; omega), hbd]

/-- C10: when a valid piece's downward move is rejected, the anchor row
is at most the board's row count; consequently the merge loop only ORs
piece rows into existing board rows or appends at the current top: for
any `start ≤ board.length`, the merged board has length
`max board.length (start + bits.length)` and row `i` equals the old row
ORed with the piece row `i - start` (rows outside `[start, start+|bits|)`
are untouched), i.e. the board stays a contiguous bottom-up sequence
that never gains a row at an index above its length. -/
theorem lock_merge_contiguous (t : Tetris) (hv : piece_en_cours t = true)
    (hr : (move_down t).2 = false) :
    t.current_piece.loc.row ≤ (t.board.length : Int) ∧
    (∀ board bits : List Nat, ∀ start : Nat, start ≤ board.length →
      (mergeRows board start bits).length = max board.length (start + bits.length) ∧
      ∀ i : Nat, (mergeRows board start bits).getD i 0 =
        board.getD i 0 |||
          (if start ≤ i ∧ i < start + bits.length then bits.getD (i - start) 0 else 0)) := by
  constructor
  · have hc := move_down_false_cond hr
    have h0 := valid_row_nonneg hv
    by_cases hneg : t.current_piece.loc.row - 1 < 0
    · omega
    · unfold piece_en_cours at hv hc
      simp only [setRow_current_row, setRow_current_col, setRow_get_width, setRow_board,
        setRow_get_bits, setRow_width] at hc
      rw [if_neg hneg] at hc
      split at hv
      · simp at hv
      · split at hv
        · simp at hv
        · rename_i hcol1
          split at hv
          · simp at hv
          · rename_i hcol2
            rw [if_neg hcol1, if_neg hcol2] at hc
            have hlt := noOverlap_false_lt _ _ _ hc
            omega
  · intro board bits start hs
    exact ⟨mergeRows_length bits board start hs, mergeRows_getD bits board start hs⟩

/-! ## Bit lengths, columns and the rotation transform -/

theorem bitLenAux_zero (fuel : Nat) : bitLenAux fuel 0 = 0 := by
  cases fuel <;> rfl

theorem bitLenAux_lt_two_pow : ∀ (fuel n : Nat), n ≤ fuel → n < 2 ^ bitLenAux fuel n := by
  intro fuel
  induction fuel with
  | zero =>
    intro n h
    have hn : n = 0 := by omega
    subst hn
    simp [bitLenAux]
  | succ fuel ih =>
    intro n h
    match n with
    | 0 => simp [bitLenAux_zero]
    | m + 1 =>
      have hh : (m + 1) / 2 ≤ fuel := by omega
      have hrec := ih ((m + 1) / 2) hh
      show m + 1 < 2 ^ (bitLenAux fuel ((m + 1) / 2) + 1)
      rw [pow_succ]
      omega

theorem bitLenAux_pos : ∀ (fuel n : Nat), 1 ≤ n → n ≤ fuel → 1 ≤ bitLenAux fuel n := by
  intro fuel n h1 h2
  match fuel, n with
  | 0, n => omega
  | fuel + 1, 0 => omega
  | fuel + 1, m + 1 => show 1 ≤ bitLenAux fuel ((m + 1) / 2) + 1; omega

theorem two_pow_pred_le_bitLenAux :
    ∀ (fuel n : Nat), 1 ≤ n → n ≤ fuel → 2 ^ (bitLenAux fuel n - 1) ≤ n := by
  intro fuel
  induction fuel with
  | zero => intro n h1 h2; omega
  | succ fuel ih =>
    intro n h1 h2
    match n with
    | m + 1 =>
      show 2 ^ (bitLenAux fuel ((m + 1) / 2) + 1 - 1) ≤ m + 1
      by_cases h0 : (m + 1) / 2 = 0
      · have hm : m = 0 := by omega
        subst hm
        rw [h0, bitLenAux_zero]
        decide
      · have hle : (m + 1) / 2 ≤ fuel := by omega
        have hrec := ih ((m + 1) / 2) (by omega) hle
        have hb : 1 ≤ bitLenAux fuel ((m + 1) / 2) := bitLenAux_pos fuel _ (by omega) hle
        have h2b : 2 ^ bitLenAux fuel ((m + 1) / 2) =
            2 * 2 ^ (bitLenAux fuel ((m + 1) / 2) - 1) := by
          conv_lhs => rw [show bitLenAux fuel ((m + 1) / 2) =
            (bitLenAux fuel ((m + 1) / 2) - 1) + 1 by omega]
          rw [pow_succ]
          ring
        have hgoal : bitLenAux fuel ((m + 1) / 2) + 1 - 1 = bitLenAux fuel ((m + 1) / 2) := by
          omega
        rw [hgoal, h2b]
        omega

theorem lt_two_pow_bitLen (n : Nat) : n < 2 ^ bitLen n :=
  bitLenAux_lt_two_pow n n le_rfl

theorem two_pow_pred_le_bitLen {n : Nat} (h : 1 ≤ n) : 2 ^ (bitLen n - 1) ≤ n :=
  two_pow_pred_le_bitLenAux n n h le_rfl

theorem bitLen_pos {n : Nat} (h : 1 ≤ n) : 1 ≤ bitLen n :=
  bitLenAux_pos n n h le_rfl

theorem bitLen_le_iff {n k : Nat} : bitLen n ≤ k ↔ n < 2 ^ k := by
  constructor
  · intro h
    exact lt_of_lt_of_le (lt_two_pow_bitLen n) (Nat.pow_le_pow_right (by omega) h)
  · intro h
    by_contra hk
    push_neg at hk
    have h1 : 1 ≤ n := by
      by_contra h0
      push_neg at h0
      have hn : n = 0 := by omega
      subst hn
      rw [show bitLen 0 = 0 from rfl] at hk
      omega
    have hlo := two_pow_pred_le_bitLen h1
    have hp : 2 ^ k ≤ 2 ^ (bitLen n - 1) := Nat.pow_le_pow_right (by omega) (by omega)
    omega

theorem testBit_bitLen_pred {n : Nat} (h : n ≠ 0) : n.testBit (bitLen n - 1) = true := by
  have h1 : 1 ≤ n := by omega
  have hlo := two_pow_pred_le_bitLen h1
  have hhi := lt_two_pow_bitLen n
  have hL : 2 ^ bitLen n = 2 ^ (bitLen n - 1) * 2 := by
    conv_lhs => rw [show bitLen n = (bitLen n - 1) + 1 by have := bitLen_pos h1; omega]
    rw [pow_succ]
  have hdiv : n / 2 ^ (bitLen n - 1) = 1 :=
    Nat.div_eq_of_lt_le (by omega) (by omega)
  rw [Nat.testBit_to_div_mod, hdiv]
  decide

theorem colBits_testBit : ∀ (shape : List Nat) (k a : Nat),
    (colBits shape k).testBit a =
      if a < shape.length then (shape.getD a 0).testBit k else false := by
  intro shape
  induction shape with
  | nil =>
    intro k a
    simp [colBits, Nat.zero_testBit]
  | cons layer rest ih =>
    intro k a
    match a with
    | 0 =>
      rw [if_pos (by simp only [List.length_cons]; omega), List.getD_cons_zero]
      show ((if layer.testBit k then 1 else 0) + 2 * colBits rest k).testBit 0 = _
      rw [Nat.testBit_zero]
      by_cases ht : layer.testBit k = true
      · rw [ht, if_pos rfl]
        have hmod : (1 + 2 * colBits rest k) % 2 = 1 := by omega
        simp [hmod]
      · have ht2 : layer.testBit k = false := by
          cases hx : layer.testBit k
          · rfl
          · exact absurd hx ht
        rw [ht2, if_neg (by simp)]
        have hmod : (0 + 2 * colBits rest k) % 2 = 0 := by omega
        simp [hmod]
    | b + 1 =>
      show ((if layer.testBit k then 1 else 0) + 2 * colBits rest k).testBit (b + 1) = _
      rw [Nat.testBit_add_one]
      have hdiv : ((if layer.testBit k then 1 else 0) + 2 * colBits rest k) / 2 =
          colBits rest k := by
        split <;> omega
      rw [hdiv, ih]
      rw [List.getD_cons_succ]
      by_cases hb : b < rest.length
      · rw [if_pos hb, if_pos (by simp only [List.length_cons]; omega)]
      · rw [if_neg hb, if_neg (by simp only [List.length_cons]; omega)]

theorem colBits_lt : ∀ (shape : List Nat) (k : Nat), colBits shape k < 2 ^ shape.length := by
  intro shape
  induction shape with
  | nil => intro k; simp [colBits]
  | cons layer rest ih =>
    intro k
    have hrec := ih k
    show (if layer.testBit k then 1 else 0) + 2 * colBits rest k < 2 ^ (rest.length + 1)
    rw [pow_succ]
    split <;> omega

theorem shapeWidth_cons (a : Nat) (l : List Nat) :
    shapeWidth (a :: l) = max (bitLen a) (shapeWidth l) := rfl

theorem shapeWidth_le : ∀ (l : List Nat) (n : Nat),
    (∀ x ∈ l, bitLen x ≤ n) → shapeWidth l ≤ n := by
  intro l
  induction l with
  | nil => intro n _; simp [shapeWidth]
  | cons a l ih =>
    intro n h
    rw [shapeWidth_cons]
    exact max_le (h a (by simp)) (ih n (fun x hx => h x (by simp [hx])))

theorem le_shapeWidth : ∀ (l : List Nat), ∀ x ∈ l, bitLen x ≤ shapeWidth l := by
  intro l
  induction l with
  | nil => intro x hx; simp at hx
  | cons a l ih =>
    intro x hx
    rw [shapeWidth_cons]
    rcases List.mem_cons.mp hx with rfl | hx2
    · exact le_max_left _ _
    · exact le_trans (ih x hx2) (le_max_right _ _)

theorem rotation_length (shape : List Nat) :
    (rotation shape).length = max (shapeWidth shape) 1 := by
  unfold rotation
  simp

theorem rotation_getD {shape : List Nat} {j : Nat} (hj : j < max (shapeWidth shape) 1) :
    (rotation shape).getD j 0 = colBits shape (max (shapeWidth shape) 1 - 1 - j) := by
  unfold rotation
  rw [List.getD_eq_getElem?_getD, List.getElem?_map, List.getElem?_range hj]
  rfl

theorem mem_rotation {shape : List Nat} {x : Nat} (hx : x ∈ rotation shape) :
    ∃ j < max (shapeWidth shape) 1, x = colBits shape (max (shapeWidth shape) 1 - 1 - j) := by
  unfold rotation at hx
  obtain ⟨j, hj, rfl⟩ := List.mem_map.mp hx
  exact ⟨j, List.mem_range.mp hj, rfl⟩

/-- C7 (amended): for a non-empty shape whose top (last) row bitmask is
nonzero, with `w` the maximum bit length over the rows, `rotation`
returns a sequence of height `w` and width (maximum bit length) equal
to the original height, and bit `a` of result row `j` equals bit
`w - 1 - j` of input row `a` — the shape rotated 90 degrees in a fixed
direction. -/
theorem rotation_dims (shape : List Nat) (hne : shape ≠ [])
    (htop : shape.getLast hne ≠ 0) :
    (rotation shape).length = shapeWidth shape ∧
    shapeWidth (rotation shape) = shape.length ∧
    (∀ j < shapeWidth shape, ∀ a < shape.length,
      ((rotation shape).getD j 0).testBit a =
        (shape.getD a 0).testBit (shapeWidth shape - 1 - j)) := by
  have hlastmem := List.getLast_mem hne
  have hw1 : 1 ≤ shapeWidth shape :=
    le_trans (bitLen_pos (by omega)) (le_shapeWidth _ _ hlastmem)
  have hmax : max (shapeWidth shape) 1 = shapeWidth shape := by omega
  have hlpos : 0 < shape.length := List.length_pos.mpr hne
  refine ⟨by rw [rotation_length, hmax], ?_, ?_⟩
  · apply le_antisymm
    · apply shapeWidth_le
      intro x hx
      obtain ⟨j, hj, rfl⟩ := mem_rotation hx
      rw [bitLen_le_iff]
      exact colBits_lt shape _
    · have hL1 : 1 ≤ bitLen (shape.getLast hne) := bitLen_pos (by omega)
      have hLw : bitLen (shape.getLast hne) ≤ shapeWidth shape := le_shapeWidth _ _ hlastmem
      have hj : shapeWidth shape - bitLen (shape.getLast hne) < max (shapeWidth shape) 1 := by
        omega
      have hk : max (shapeWidth shape) 1 - 1 -
          (shapeWidth shape - bitLen (shape.getLast hne)) =
          bitLen (shape.getLast hne) - 1 := by omega
      have hmem : colBits shape (bitLen (shape.getLast hne) - 1) ∈ rotation shape := by
        unfold rotation
        apply List.mem_map.mpr
        exact ⟨shapeWidth shape - bitLen (shape.getLast hne), List.mem_range.mpr hj,
          by rw [hk]⟩
      have hgetD : shape.getD (shape.length - 1) 0 = shape.getLast hne := by
        rw [List.getLast_eq_getElem]
        exact List.getD_eq_getElem shape 0 (by omega)
      have hbit : (colBits shape (bitLen (shape.getLast hne) - 1)).testBit
          (shape.length - 1) = true := by
        rw [colBits_testBit, if_pos (by omega), hgetD]
        exact testBit_bitLen_pred htop
      have hge : 2 ^ (shape.length - 1) ≤ colBits shape (bitLen (shape.getLast hne) - 1) :=
        Nat.testBit_implies_ge hbit
      have hlen : shape.length ≤ bitLen (colBits shape (bitLen (shape.getLast hne) - 1)) := by
        by_contra hcon
        push_neg at hcon
        have hub : colBits shape (bitLen (shape.getLast hne) - 1) < 2 ^ (shape.length - 1) := by
          have h1 := lt_two_pow_bitLen (colBits shape (bitLen (shape.getLast hne) - 1))
          have hp : (2 : Nat) ^ bitLen (colBits shape (bitLen (shape.getLast hne) - 1)) ≤
              2 ^ (shape.length - 1) := Nat.pow_le_pow_right (by omega) (by omega)
          omega
        omega
      exact le_trans hlen (le_shapeWidth _ _ hmem)
  · intro j hj a ha
    rw [rotation_getD (by omega), hmax, colBits_testBit, if_pos ha]

/-- C7 counterexample: the claim as stated quantifies over every
non-empty row-bitmask sequence; for `[1, 0]` (an occupied bottom row
under an empty top row, height 2, width 1) the rotation result `[1]`
has width 1, not the promised width 2. -/
theorem rotation_dims_cex : shapeWidth (rotation [1, 0]) ≠ ([1, 0] : List Nat).length := by
  decide

/-- C7 witness: the amended statement instantiated at the s-piece
`(0b110, 0b011)`. -/
theorem rotation_dims_witness :
    (rotation [6, 3]).length = shapeWidth [6, 3] ∧
    shapeWidth (rotation [6, 3]) = ([6, 3] : List Nat).length ∧
    (∀ j < shapeWidth [6, 3], ∀ a < ([6, 3] : List Nat).length,
      ((rotation [6, 3]).getD j 0).testBit a =
        (([6, 3] : List Nat).getD a 0).testBit (shapeWidth [6, 3] - 1 - j)) :=
  rotation_dims [6, 3] (by decide) (by decide)

/-- C10 witness: instantiated at the concrete state `T2`, whose piece is
validly placed and whose downward move is rejected. -/
theorem lock_merge_contiguous_witness :
    T2.current_piece.loc.row ≤ (T2.board.length : Int) ∧
    (∀ board bits : List Nat, ∀ start : Nat, start ≤ board.length →
      (mergeRows board start bits).length = max board.length (start + bits.length) ∧
      ∀ i : Nat, (mergeRows board start bits).getD i 0 =
        board.getD i 0 |||
          (if start ≤ i ∧ i < start + bits.length then bits.getD (i - start) 0 else 0)) :=
  lock_merge_contiguous T2 rfl rfl

end Tet
